import Mathlib

/-!
Shallow embedding of the `qudoku` secret-sharing library and verification of
its specification claims.

The library implements polynomial-based secret sharing over a finite field
and an elliptic-curve group.  The external arithmetic provider (the `secp`
crate's `MaybeScalar` and `MaybePoint` types) is modelled abstractly: scalars
form a field `F` with decidable equality, points form an additive commutative
group `O` that is a module over `F`.  Fallible operations (the Rust panics
inside `UnsafeDiv::unsafe_div` and out-of-bounds indexing) are modelled with
`Option`: `none` is a panic.
-/

namespace Qudoku

/-- `Evaluation<I, O>` from `src/polynomials/evaluation.rs`: one `(input, output)`
sample of a polynomial. -/
structure Evaluation (I O : Type) where
  input : I
  output : O
  deriving DecidableEq, Repr

/-- `StandardFormPolynomial<T>` from `src/polynomials/standard.rs`: the ordered
coefficient list, constant term first. -/
structure StandardFormPolynomial (T : Type) where
  coefficients : List T
  deriving DecidableEq, Repr

/-- `LagrangePolynomial<I, O>` from `src/polynomials/lagrange.rs`: the ordered
sample list. -/
structure LagrangePolynomial (I O : Type) where
  evaluations : List (Evaluation I O)
  deriving DecidableEq, Repr

section StandardForm

variable {F : Type} [Field F] {O : Type} [AddCommGroup O] [Module F O]

/-- `horner_poly_evaluate` from `src/polynomials/standard.rs`: starting from
zero, iterate over the coefficients from highest degree to lowest with
`out = out * x + a`.  The Rust scalar-against-output multiplication
`out * x` is the module action `x • out`. -/
def horner_poly_evaluate (x : F) (coefficients : List O) : O :=
  coefficients.reverse.foldl (fun out a => x • out + a) 0

/-- `StandardFormPolynomial::evaluate` (the `Polynomial` impl in
`src/polynomials/standard.rs`). -/
def StandardFormPolynomial.evaluate (p : StandardFormPolynomial O) (x : F) : O :=
  horner_poly_evaluate x p.coefficients

/-- The trailing-zero trimming loop inside `StandardFormPolynomial::degree`:
walk the reversed coefficient list, decrementing the running degree for each
zero coefficient while the degree is still positive. -/
def trimDegreeLoop {T : Type} [Zero T] [DecidableEq T] : List T → ℕ → ℕ
  | [], degree => degree
  | coeff :: rest, degree =>
    if coeff = 0 ∧ degree > 0 then trimDegreeLoop rest (degree - 1) else degree

/-- `StandardFormPolynomial::degree` from `src/polynomials/standard.rs`:
`coefficients.len() - 1` (or `0` when empty), minus the trailing zero
coefficients, never going below zero. -/
def StandardFormPolynomial.degree {T : Type} [Zero T] [DecidableEq T]
    (p : StandardFormPolynomial T) : ℕ :=
  trimDegreeLoop p.coefficients.reverse
    (match p.coefficients.length with
      | 0 => 0
      | t => t - 1)

/-- `Polynomial::interpolation_threshold` (default trait method in
`src/polynomials/mod.rs`) for the standard form: `degree() + 1`. -/
def StandardFormPolynomial.interpolation_threshold {T : Type} [Zero T] [DecidableEq T]
    (p : StandardFormPolynomial T) : ℕ :=
  p.degree + 1

/-- `issue_share` (from the `impl_issue_share!` macro in `src/sharing.rs`) for a
standard-form polynomial: pair the input with the evaluation at that input. -/
def StandardFormPolynomial.issue_share (p : StandardFormPolynomial O) (x : F) :
    Evaluation F O :=
  ⟨x, p.evaluate x⟩

end StandardForm

section Lagrange

variable {F : Type} [Field F] [DecidableEq F] {O : Type} [AddCommGroup O] [Module F O]

/-- `UnsafeDiv::unsafe_div` for `secp::MaybeScalar`
(`src/polynomials/lagrange.rs`): an additive-identity divisor hits the
`MaybeScalar::Zero` match arm and panics (`none`); otherwise it divides. -/
def checked_div (num denom : F) : Option F :=
  if denom = 0 then none else some (num / denom)

/-- The product loop of `langrange_poly_evaluate` (`src/polynomials/lagrange.rs`):
iterate over the evaluations with their indices `i`, skipping `eval_index`;
multiply `top` by `(x - eval.input)`, returning early with the zero that `top`
just reached; multiply `bottom` by `(xj - eval.input)`; finally divide `top`
by `bottom` with the checked division. -/
def lagrangeLoop (x xj : F) (eval_index : ℕ) :
    List (Evaluation F O) → ℕ → F → F → Option F
  | [], _, top, bottom => checked_div top bottom
  | eval :: rest, i, top, bottom =>
    if i = eval_index then
      lagrangeLoop x xj eval_index rest (i + 1) top bottom
    else
      let top' := top * (x - eval.input)
      if top' = 0 then some top'
      else lagrangeLoop x xj eval_index rest (i + 1) top' (bottom * (xj - eval.input))

/-- `langrange_poly_evaluate` from `src/polynomials/lagrange.rs` (the function
name reproduces the source's spelling).  Indexing `evaluations[eval_index]`
panics (`none`) when out of bounds; `x == xj` short-circuits to the
multiplicative identity. -/
def langrange_poly_evaluate (evaluations : List (Evaluation F O)) (eval_index : ℕ)
    (x : F) : Option F :=
  match evaluations.get? eval_index with
  | none => none
  | some ej =>
    if x = ej.input then some 1
    else lagrangeLoop x ej.input eval_index evaluations 0 1 1

/-- The summation loop of `LagrangePolynomial::evaluate`: iterate over the
evaluations with their indices, accumulating
`out = out + eval.output * langrange_poly_evaluate(evaluations, i, x)`.
A panic inside the basis computation aborts the whole evaluation. -/
def evaluateLoop (evaluations : List (Evaluation F O)) (x : F) :
    List (Evaluation F O) → ℕ → O → Option O
  | [], _, out => some out
  | eval :: rest, i, out =>
    match langrange_poly_evaluate evaluations i x with
    | none => none
    | some l => evaluateLoop evaluations x rest (i + 1) (out + l • eval.output)

/-- `LagrangePolynomial::evaluate` (the `Polynomial` impl in
`src/polynomials/lagrange.rs`). -/
def LagrangePolynomial.evaluate (p : LagrangePolynomial F O) (x : F) : Option O :=
  evaluateLoop p.evaluations x p.evaluations 0 0

/-- `LagrangePolynomial::degree` from `src/polynomials/lagrange.rs`:
`evaluations.len() - 1`, or `0` for an empty sample list. -/
def LagrangePolynomial.degree {I O : Type} (p : LagrangePolynomial I O) : ℕ :=
  match p.evaluations.length with
  | 0 => 0
  | t => t - 1

/-- `Polynomial::interpolation_threshold` (default trait method in
`src/polynomials/mod.rs`) for the Lagrange form: `degree() + 1`. -/
def LagrangePolynomial.interpolation_threshold {I O : Type}
    (p : LagrangePolynomial I O) : ℕ :=
  p.degree + 1

/-- `issue_share` (from the `impl_issue_share!` macro in `src/sharing.rs`) for an
interpolated polynomial.  Evaluation can panic, so the issued share is
optional. -/
def LagrangePolynomial.issue_share (p : LagrangePolynomial F O) (x : F) :
    Option (Evaluation F O) :=
  (p.evaluate x).map (fun out => ⟨x, out⟩)

end Lagrange

section PointOps

variable {F : Type} [Field F] [DecidableEq F] {P : Type} [AddCommGroup P] [Module F P]

/-- `impl Mul<&SecretSharingPolynomial> for Point` from `src/ops.rs`: multiply
every scalar coefficient by the fixed point `Q`, preserving coefficient
order. -/
def pointMulStandard (Q : P) (rhs : StandardFormPolynomial F) :
    StandardFormPolynomial P :=
  ⟨rhs.coefficients.map (fun scalar => scalar • Q)⟩

/-- `impl Mul<&InterpolatedSecretPolynomial> for Point` from `src/ops.rs`: keep
every sample's input and multiply its output by the fixed point `Q`. -/
def pointMulLagrange (Q : P) (rhs : LagrangePolynomial F F) :
    LagrangePolynomial F P :=
  ⟨rhs.evaluations.map (fun eval => ⟨eval.input, eval.output • Q⟩)⟩

end PointOps

section BridgeDefs

variable {F : Type} [Field F] [DecidableEq F] {O : Type} [AddCommGroup O] [Module F O]

/-- Default sample used only to make `List.getD` total; positions are always
in range where it appears. -/
def dfltEval : Evaluation F O := ⟨0, 0⟩

/-- The value of Mathlib's Lagrange basis polynomial at `x` for the `j`-th
stored input, as a total function of the index. -/
noncomputable def basisAt (evals : List (Evaluation F O)) (x : F) (j : ℕ) : F :=
  if h : j < evals.length then
    Polynomial.eval x (Lagrange.basis Finset.univ
      (fun k : Fin evals.length => (evals.get k).input) ⟨j, h⟩)
  else 0

end BridgeDefs

section Hashing

/-- `inc_slice_be` from `src/hashing.rs`, expressed on the reversed
(little-endian) byte list: a `0xFF` byte becomes zero with a carry into the
next position, any other byte is incremented and the carry stops. -/
def incBytesLE : List ℕ → List ℕ
  | [] => []
  | b :: rest => if b = 0xFF then 0 :: incBytesLE rest else (b + 1) :: rest

/-- `inc_slice_be` from `src/hashing.rs`: increment a byte slice as a
big-endian integer, starting at the last byte and carrying toward the
front. -/
def inc_slice_be (slice : List ℕ) : List ℕ :=
  (incBytesLE slice.reverse).reverse

/-- The value of a byte list read as a big-endian unsigned integer. -/
def beVal (slice : List ℕ) : ℕ :=
  slice.foldl (fun acc b => acc * 256 + b) 0

/-- The value of a byte list read as a little-endian unsigned integer; the
induction-friendly mirror of `beVal`. -/
def leVal : List ℕ → ℕ
  | [] => 0
  | b :: rest => b + 256 * leVal rest

/-- The retry loop of `hash_to_point` from `src/hashing.rs`, with the external
x-coordinate lift (`secp::Point::lift_x`) abstracted as `lift` and an explicit
fuel bound standing in for the source's unbounded `loop`. -/
def hashToPointLoop {P : Type} (lift : List ℕ → Option P) :
    ℕ → List ℕ → Option P
  | 0, _ => none
  | fuel + 1, h =>
    match lift h with
    | some point => some point
    | none => hashToPointLoop lift fuel (inc_slice_be h)

/-- `hash_to_point` from `src/hashing.rs`: hash the input with the external
`sha256` primitive (abstracted as `sha`), then retry-lift the digest,
incrementing it big-endian on each failure. -/
def hash_to_point {P : Type} (sha : List ℕ → List ℕ) (lift : List ℕ → Option P)
    (fuel : ℕ) (input : List ℕ) : Option P :=
  hashToPointLoop lift fuel (sha input)

end Hashing

/-- Small prime field used to exercise the definitions on concrete inputs. -/
instance fact_prime_11 : Fact (Nat.Prime 11) := ⟨by norm_num⟩

/-- The abstract polynomial `a0 + X * (a1 + X * (...))` determined by a
coefficient list; the bridge between the executable evaluators and Mathlib's
polynomial theory. -/
noncomputable def ofCoeffList {F : Type} [Field F] : List F → Polynomial F
  | [] => 0
  | a :: rest => Polynomial.C a + Polynomial.X * ofCoeffList rest

section StandardFormLemmas

variable {F : Type} [Field F] {O : Type} [AddCommGroup O] [Module F O]

theorem horner_nil (x : F) : horner_poly_evaluate x ([] : List O) = 0 := rfl

theorem horner_cons (x : F) (a : O) (c : List O) :
    horner_poly_evaluate x (a :: c) = x • horner_poly_evaluate x c + a := by
  unfold horner_poly_evaluate
  rw [List.reverse_cons, List.foldl_append]
  rfl

/-- Horner evaluation computes the power sum `Σ c[i]·x^i`. -/
theorem horner_eq_sum (x : F) (c : List O) :
    horner_poly_evaluate x c =
      ∑ i ∈ Finset.range c.length, x ^ i • c.getD i 0 := by
  induction c with
  | nil => simp [horner_nil]
  | cons a rest ih =>
    rw [horner_cons, ih, List.length_cons, Finset.sum_range_succ', Finset.smul_sum]
    simp only [List.getD_cons_succ, List.getD_cons_zero, pow_zero, one_smul, smul_smul,
      ← pow_succ']

end StandardFormLemmas

section DegreeLemmas

variable {T : Type} [Zero T] [DecidableEq T]

/-- The trimming loop subtracts the number of leading zeros of the reversed
list (natural subtraction caps the result at zero). -/
theorem trimDegreeLoop_eq (r : List T) (d : ℕ) :
    trimDegreeLoop r d = d - (r.takeWhile (fun a => a = 0)).length := by
  induction r generalizing d with
  | nil => simp [trimDegreeLoop]
  | cons a rest ih =>
    by_cases ha : a = 0
    · by_cases hd : d > 0
      · rw [trimDegreeLoop, if_pos ⟨ha, hd⟩, ih]
        rw [List.takeWhile_cons, if_pos (by simpa using ha)]
        simp only [List.length_cons]
        omega
      · rw [trimDegreeLoop, if_neg (by tauto)]
        omega
    · rw [trimDegreeLoop, if_neg (by tauto)]
      rw [List.takeWhile_cons, if_neg (by simpa using ha)]
      simp

theorem degree_eq_sub (cs : List T) :
    (StandardFormPolynomial.mk cs).degree =
      cs.length - 1 - (cs.reverse.takeWhile (fun a => a = 0)).length := by
  rw [StandardFormPolynomial.degree, trimDegreeLoop_eq]
  rcases cs with _ | ⟨a, rest⟩ <;> simp

/-- Every coefficient index beyond the trimmed degree holds a zero
coefficient. -/
theorem getD_eq_zero_of_degree_lt (cs : List T) (m : ℕ)
    (hm : (StandardFormPolynomial.mk cs).degree < m) : cs.getD m 0 = 0 := by
  by_cases hlen : m < cs.length
  · rw [degree_eq_sub] at hm
    have htle : (cs.reverse.takeWhile (fun a => a = 0)).length ≤ cs.reverse.length :=
      List.IsPrefix.length_le ( List.takeWhile_prefix _)
    have hrlen : cs.reverse.length = cs.length := List.length_reverse cs
    have hidx : cs.length - 1 - m < (cs.reverse.takeWhile (fun a => a = 0)).length := by
      omega
    have hlt : cs.length - 1 - m < cs.reverse.length := by omega
    have hmem : cs.reverse[cs.length - 1 - m] ∈ cs.reverse.takeWhile (fun a => a = 0) := by
      rw [← List.IsPrefix.getElem ( List.takeWhile_prefix _) hidx]
      exact List.getElem_mem _
    have hzero : cs.reverse[cs.length - 1 - m] = 0 := by
      simpa using List.mem_takeWhile_imp hmem
    have hidxeq : cs.length - 1 - (cs.length - 1 - m) = m := by omega
    have hrev : cs.reverse[cs.length - 1 - m] = cs[m] := by
      rw [List.getElem_reverse]
      simp only [hidxeq]
    rw [List.getD_eq_getElem cs 0 hlen, ← hrev, hzero]
  · exact List.getD_eq_default _ _ (by omega)

/-- When some coefficient is non-zero, the coefficient at the trimmed degree
is non-zero (it is the highest non-zero coefficient). -/
theorem getD_degree_ne_zero (cs : List T) (h : ∃ i, cs.getD i 0 ≠ 0) :
    cs.getD (StandardFormPolynomial.mk cs).degree 0 ≠ 0 := by
  obtain ⟨i, hi⟩ := h
  have hilen : i < cs.length := by
    by_contra hge
    exact hi (List.getD_eq_default _ _ (by omega))
  have hrlen : cs.reverse.length = cs.length := List.length_reverse cs
  have htle : (cs.reverse.takeWhile (fun a => a = 0)).length ≤ cs.reverse.length :=
    List.IsPrefix.length_le ( List.takeWhile_prefix _)
  -- the takeWhile prefix is not all of the reversed list: otherwise every
  -- coefficient would be zero.
  have htlt : (cs.reverse.takeWhile (fun a => a = 0)).length < cs.reverse.length := by
    rcases Nat.lt_or_ge (cs.reverse.takeWhile (fun a => a = 0)).length cs.reverse.length
      with h' | h'
    · exact h'
    · exfalso
      have hteq : cs.reverse.takeWhile (fun a => a = 0) = cs.reverse :=
        List.IsPrefix.eq_of_length ( List.takeWhile_prefix _) (by omega)
      have hmem : cs[i] ∈ cs.reverse := List.mem_reverse.mpr (List.getElem_mem _)
      rw [← hteq] at hmem
      have := List.mem_takeWhile_imp hmem
      simp only [decide_eq_true_eq] at this
      exact hi (by rwa [List.getD_eq_getElem cs 0 hilen])
  -- the element of the reversed list just past the takeWhile prefix fails the
  -- predicate, i.e. it is the highest non-zero coefficient.
  have hfail : ¬ (cs.reverse[(cs.reverse.takeWhile (fun a => a = 0)).length] = 0) := by
    have hdecomp := List.takeWhile_append_dropWhile (p := fun a => decide (a = 0))
      (l := cs.reverse)
    have hdlen : 0 < (cs.reverse.dropWhile (fun a => a = 0)).length := by
      have hlen := congrArg List.length hdecomp
      simp only [List.length_append] at hlen
      omega
    have h0 := List.dropWhile_get_zero_not (p := fun a => decide (a = 0)) cs.reverse hdlen
    have hlenapp : (cs.reverse.takeWhile (fun a => a = 0)).length <
        (cs.reverse.takeWhile (fun a => a = 0) ++
          cs.reverse.dropWhile (fun a => a = 0)).length := by
      rw [hdecomp]
      exact htlt
    have hsplit : cs.reverse[(cs.reverse.takeWhile (fun a => a = 0)).length] =
        (cs.reverse.takeWhile (fun a => a = 0) ++
          cs.reverse.dropWhile (fun a => a = 0))[(cs.reverse.takeWhile
            (fun a => a = 0)).length] :=
      List.getElem_of_eq hdecomp.symm htlt
    have happ := @List.getElem_append_right T
      (cs.reverse.takeWhile (fun a => a = 0))
      (cs.reverse.dropWhile (fun a => a = 0))
      ((cs.reverse.takeWhile (fun a => a = 0)).length)
      (Nat.le_refl _) hlenapp
    rw [List.get_eq_getElem] at h0
    intro h0'
    apply h0
    have hzero : (cs.reverse.dropWhile (fun a => a = 0))[(0 : ℕ)] = 0 := by
      simp only [Nat.sub_self] at happ
      rw [← happ, ← hsplit]
      exact h0'
    simp [hzero]
  have hlt2 : cs.length - 1 - (cs.reverse.takeWhile (fun a => a = 0)).length <
      cs.length := by omega
  have hrev : cs.reverse[(cs.reverse.takeWhile (fun a => a = 0)).length] =
      cs[cs.length - 1 - (cs.reverse.takeWhile (fun a => a = 0)).length] :=
    List.getElem_reverse _
  rw [degree_eq_sub]
  rw [List.getD_eq_getElem cs 0 (by omega)]
  rw [← hrev]
  exact hfail

/-- An all-zero coefficient vector has trimmed degree zero. -/
theorem degree_all_zero (cs : List T) (h : ∀ a ∈ cs, a = 0) :
    (StandardFormPolynomial.mk cs).degree = 0 := by
  rw [degree_eq_sub]
  have hteq : cs.reverse.takeWhile (fun a => a = 0) = cs.reverse := by
    rw [List.takeWhile_eq_self_iff]
    intro x hx
    simpa using h x (List.mem_reverse.mp hx)
  rw [hteq, List.length_reverse]
  omega

end DegreeLemmas

section OfCoeffListLemmas

variable {F : Type} [Field F] [DecidableEq F]

theorem ofCoeffList_eval (x : F) (cs : List F) :
    (ofCoeffList cs).eval x = horner_poly_evaluate x cs := by
  induction cs with
  | nil => simp [ofCoeffList, horner_nil]
  | cons a rest ih =>
    rw [ofCoeffList, horner_cons, smul_eq_mul]
    simp [ih, add_comm]

theorem ofCoeffList_coeff (cs : List F) (m : ℕ) :
    (ofCoeffList cs).coeff m = cs.getD m 0 := by
  induction cs generalizing m with
  | nil => simp [ofCoeffList]
  | cons a rest ih =>
    rcases m with _ | m
    · simp [ofCoeffList, Polynomial.mul_coeff_zero]
    · simp [ofCoeffList, Polynomial.coeff_X_mul, ih, Polynomial.coeff_C]

/-- The abstract polynomial's degree is bounded by the trimmed degree of its
coefficient list. -/
theorem ofCoeffList_degree_lt (cs : List F) :
    (ofCoeffList cs).degree < ((StandardFormPolynomial.mk cs).degree + 1 : ℕ) := by
  rw [Polynomial.degree_lt_iff_coeff_zero]
  intro m hm
  rw [ofCoeffList_coeff]
  exact getD_eq_zero_of_degree_lt cs m (by omega)

end OfCoeffListLemmas

section LagrangeLoopLemmas

variable {F : Type} [Field F] [DecidableEq F] {O : Type} [AddCommGroup O] [Module F O]

/-- When no `(x - input)` factor at a non-skipped position vanishes, the
product loop never short-circuits and ends in the checked division of the two
accumulated products. -/
theorem lagrangeLoop_eq_div (x xj : F) (idx : ℕ) (l : List (Evaluation F O))
    (i : ℕ) (top bottom : F) (htop : top ≠ 0)
    (hfac : ∀ j < l.length, i + j ≠ idx → x - (l.getD j dfltEval).input ≠ 0) :
    lagrangeLoop x xj idx l i top bottom =
      checked_div
        (top * ∏ j ∈ Finset.range l.length,
          (if i + j = idx then 1 else x - (l.getD j dfltEval).input))
        (bottom * ∏ j ∈ Finset.range l.length,
          (if i + j = idx then 1 else xj - (l.getD j dfltEval).input)) := by
  induction l generalizing i top bottom with
  | nil => simp [lagrangeLoop]
  | cons e rest ih =>
    have harith : ∀ j : ℕ, i + (j + 1) = (i + 1) + j := fun j => by omega
    have hrec : ∀ y : F,
        (∏ j ∈ Finset.range (e :: rest).length,
          (if i + j = idx then 1 else y - ((e :: rest).getD j dfltEval).input)) =
        (∏ j ∈ Finset.range rest.length,
          (if (i + 1) + j = idx then 1 else y - (rest.getD j dfltEval).input)) *
        (if i = idx then 1 else y - e.input) := by
      intro y
      rw [List.length_cons, Finset.prod_range_succ']
      congr 1
      · refine Finset.prod_congr rfl (fun j hj => ?_)
        rw [show i + (j + 1) = (i + 1) + j from by omega, List.getD_cons_succ]
    by_cases hidx : i = idx
    · rw [lagrangeLoop, if_pos hidx,
        ih (i + 1) top bottom htop (fun j hj hne => by
          have := hfac (j + 1) (by simpa using hj) (by omega)
          simpa [List.getD_cons_succ] using this)]
      rw [hrec x, hrec xj]
      simp [hidx]
    · have hfac0 : x - e.input ≠ 0 := by
        have := hfac 0 (by simp) (by omega)
        simpa using this
      have htop' : top * (x - e.input) ≠ 0 := mul_ne_zero htop hfac0
      rw [lagrangeLoop, if_neg hidx]
      simp only [if_neg htop']
      rw [ih (i + 1) (top * (x - e.input)) (bottom * (xj - e.input)) htop'
        (fun j hj hne => by
          have := hfac (j + 1) (by simpa using hj) (by omega)
          simpa [List.getD_cons_succ] using this)]
      rw [hrec x, hrec xj]
      simp only [if_neg hidx]
      congr 1 <;> ring

/-- When `x` coincides with a stored input at a non-skipped position, the
running numerator reaches zero and the loop returns it immediately. -/
theorem lagrangeLoop_eq_zero (x xj : F) (idx : ℕ) (l : List (Evaluation F O))
    (i : ℕ) (top bottom : F)
    (hzero : ∃ j, j < l.length ∧ i + j ≠ idx ∧ x = (l.getD j dfltEval).input) :
    lagrangeLoop x xj idx l i top bottom = some 0 := by
  induction l generalizing i top bottom with
  | nil =>
    obtain ⟨j, hj, -, -⟩ := hzero
    exact absurd hj (by simp)
  | cons e rest ih =>
    obtain ⟨j, hjlt, hj, hx⟩ := hzero
    by_cases hidx : i = idx
    · rw [lagrangeLoop, if_pos hidx]
      apply ih
      rcases j with _ | jv
      · exact absurd hj (by simpa using hidx)
      · exact ⟨jv, by simpa using hjlt, by omega,
          by simpa [List.getD_cons_succ] using hx⟩
    · rw [lagrangeLoop, if_neg hidx]
      by_cases htz : top * (x - e.input) = 0
      · simp [htz]
      · simp only [if_neg htz]
        apply ih
        rcases j with _ | jv
        · exfalso
          apply htz
          simp only [List.getD_cons_zero] at hx
          rw [hx]
          simp
        · exact ⟨jv, by simpa using hjlt, by omega,
            by simpa [List.getD_cons_succ] using hx⟩

end LagrangeLoopLemmas

section BasisLemmas

variable {F : Type} [Field F] [DecidableEq F] {O : Type} [AddCommGroup O] [Module F O]

theorem prod_ite_one_erase {n : ℕ} (i0 : Fin n) (g : Fin n → F) :
    (∏ j : Fin n, if j = i0 then 1 else g j) = ∏ j ∈ Finset.univ.erase i0, g j := by
  rw [← Finset.mul_prod_erase Finset.univ _ (Finset.mem_univ i0), if_pos rfl, one_mul]
  exact Finset.prod_congr rfl (fun j hj => if_neg (Finset.mem_erase.mp hj).1)

/-- Mathlib's Lagrange basis polynomial evaluates to the quotient of the two
products computed by `lagrangeLoop`. -/
theorem eval_lagrange_basis {ι : Type} [DecidableEq ι] (s : Finset ι) (v : ι → F)
    (i : ι) (x : F) :
    Polynomial.eval x (Lagrange.basis s v i) =
      (∏ j ∈ s.erase i, (x - v j)) / (∏ j ∈ s.erase i, (v i - v j)) := by
  rw [Lagrange.basis, Polynomial.eval_prod]
  simp only [Lagrange.basisDivisor, Polynomial.eval_mul, Polynomial.eval_C,
    Polynomial.eval_sub, Polynomial.eval_X]
  rw [Finset.prod_mul_distrib, Finset.prod_inv_distrib, div_eq_mul_inv, mul_comm]

/-- `List.getD` agrees with `List.get` at in-range positions. -/
theorem getD_eq_get (l : List (Evaluation F O)) (j : Fin l.length) :
    l.getD (j : ℕ) dfltEval = l.get j := by
  rw [List.getD_eq_getElem _ _ j.isLt, List.get_eq_getElem]

/-- With pairwise-distinct inputs, the executable basis computation returns
exactly Mathlib's Lagrange basis polynomial evaluated at `x`. -/
theorem langrange_eq_basis (evals : List (Evaluation F O)) (x : F)
    (i0 : Fin evals.length)
    (hinj : Function.Injective (fun j : Fin evals.length => (evals.get j).input)) :
    langrange_poly_evaluate evals (i0 : ℕ) x =
      some (Polynomial.eval x (Lagrange.basis Finset.univ
        (fun j : Fin evals.length => (evals.get j).input) i0)) := by
  have hget : evals.get? (i0 : ℕ) = some (evals.get i0) := List.get?_eq_get i0.isLt
  rw [langrange_poly_evaluate, hget]
  dsimp only
  by_cases hx : x = (evals.get i0).input
  · rw [if_pos hx, hx]
    rw [Lagrange.eval_basis_self hinj.injOn (Finset.mem_univ i0)]
  · rw [if_neg hx]
    by_cases hother : ∃ k : Fin evals.length, k ≠ i0 ∧ x = (evals.get k).input
    · obtain ⟨k, hk, hxk⟩ := hother
      rw [lagrangeLoop_eq_zero x (evals.get i0).input (i0 : ℕ) evals 0 1 1
        ⟨(k : ℕ), k.isLt, (fun hcon => hk (Fin.ext (by omega))),
          by rwa [getD_eq_get]⟩]
      have hb0 := Lagrange.eval_basis_of_ne
        (v := fun j : Fin evals.length => (evals.get j).input)
        (Ne.symm hk) (Finset.mem_univ k)
      simp only at hb0
      rw [hxk, hb0]
    · push_neg at hother
      have hfac : ∀ j < evals.length, 0 + j ≠ (i0 : ℕ) →
          x - (evals.getD j dfltEval).input ≠ 0 := by
        intro j hj hne
        rw [getD_eq_get evals ⟨j, hj⟩]
        exact sub_ne_zero_of_ne
          (hother ⟨j, hj⟩ (fun hcon => hne (by
            have hval : j = (i0 : ℕ) := congrArg Fin.val hcon
            omega)))
      rw [lagrangeLoop_eq_div x (evals.get i0).input (i0 : ℕ) evals 0 1 1
        one_ne_zero hfac, one_mul, one_mul]
      have hconv : ∀ y : F,
          (∏ j ∈ Finset.range evals.length,
            (if 0 + j = (i0 : ℕ) then 1 else y - (evals.getD j dfltEval).input)) =
          ∏ j ∈ Finset.univ.erase i0, (y - (evals.get j).input) := by
        intro y
        rw [← Fin.prod_univ_eq_prod_range
          (fun j => if 0 + j = (i0 : ℕ) then 1 else y - (evals.getD j dfltEval).input)]
        rw [← prod_ite_one_erase i0 (fun j => y - (evals.get j).input)]
        refine Finset.prod_congr rfl (fun j _ => ?_)
        by_cases hji : j = i0
        · rw [if_pos (show 0 + (j : ℕ) = (i0 : ℕ) by rw [hji]; omega), if_pos hji]
        · rw [if_neg (fun hcon => hji (Fin.ext (by omega))), if_neg hji, getD_eq_get]
      rw [hconv x, hconv (evals.get i0).input]
      have hbne : (∏ j ∈ Finset.univ.erase i0,
          ((evals.get i0).input - (evals.get j).input)) ≠ 0 := by
        rw [Finset.prod_ne_zero_iff]
        intro j hj
        exact sub_ne_zero_of_ne
          (fun hcon => (Finset.mem_erase.mp hj).1 (hinj hcon.symm))
      rw [checked_div, if_neg hbne, eval_lagrange_basis]

end BasisLemmas

section EvaluateLemmas

variable {F : Type} [Field F] [DecidableEq F] {O : Type} [AddCommGroup O] [Module F O]

/-- When every basis computation succeeds, the summation loop returns the
accumulated weighted sum. -/
theorem evaluateLoop_eq_sum (evals : List (Evaluation F O)) (x : F) (g : ℕ → F)
    (l : List (Evaluation F O)) (i : ℕ) (out : O)
    (hbasis : ∀ j < l.length,
      langrange_poly_evaluate evals (i + j) x = some (g (i + j))) :
    evaluateLoop evals x l i out =
      some (out + ∑ j ∈ Finset.range l.length,
        g (i + j) • (l.getD j dfltEval).output) := by
  induction l generalizing i out with
  | nil => simp [evaluateLoop]
  | cons e rest ih =>
    have h0 := hbasis 0 (by simp)
    rw [Nat.add_zero] at h0
    rw [evaluateLoop, h0]
    dsimp only
    rw [ih (i + 1) (out + g i • e.output) (fun j hj => by
      have := hbasis (j + 1) (by simpa using hj)
      rwa [show i + (j + 1) = (i + 1) + j from by omega] at this)]
    have hsum : (∑ j ∈ Finset.range rest.length,
        g ((i + 1) + j) • (rest.getD j dfltEval).output) =
        ∑ j ∈ Finset.range rest.length,
          g (i + (j + 1)) • ((e :: rest).getD (j + 1) dfltEval).output :=
      Finset.sum_congr rfl (fun j _ => by
        rw [show (i + 1) + j = i + (j + 1) from by omega, List.getD_cons_succ])
    rw [hsum, List.length_cons, Finset.sum_range_succ']
    simp only [List.getD_cons_zero, Nat.add_zero]
    rw [add_assoc, add_comm (g i • e.output)]

/-- A single failing basis computation poisons the whole summation loop. -/
theorem evaluateLoop_eq_none (evals : List (Evaluation F O)) (x : F)
    (l : List (Evaluation F O)) (i : ℕ)
    (hnone : ∃ j, j < l.length ∧ langrange_poly_evaluate evals (i + j) x = none) :
    ∀ out, evaluateLoop evals x l i out = none := by
  induction l generalizing i with
  | nil =>
    obtain ⟨j, hj, -⟩ := hnone
    exact absurd hj (by simp)
  | cons e rest ih =>
    intro out
    obtain ⟨j, hjlt, hj⟩ := hnone
    rw [evaluateLoop]
    cases hmatch : langrange_poly_evaluate evals i x with
    | none => rfl
    | some l0 =>
      apply ih
      rcases j with _ | jv
      · rw [Nat.add_zero] at hj
        rw [hj] at hmatch
        cases hmatch
      · exact ⟨jv, by simpa using hjlt,
          by rwa [show i + (jv + 1) = (i + 1) + jv from by omega] at hj⟩

/-- With pairwise-distinct inputs, the executable Lagrange evaluation returns
the weighted sum of Mathlib Lagrange basis values. -/
theorem evaluate_eq_sum_basis (p : LagrangePolynomial F O) (x : F)
    (hinj : Function.Injective
      (fun j : Fin p.evaluations.length => (p.evaluations.get j).input)) :
    p.evaluate x = some (∑ j : Fin p.evaluations.length,
      (Polynomial.eval x (Lagrange.basis Finset.univ
        (fun k : Fin p.evaluations.length => (p.evaluations.get k).input) j)) •
      (p.evaluations.get j).output) := by
  rw [LagrangePolynomial.evaluate]
  rw [evaluateLoop_eq_sum p.evaluations x (basisAt p.evaluations x)
    p.evaluations 0 0 (fun j hj => by
      rw [Nat.zero_add]
      have hg : basisAt p.evaluations x j =
          Polynomial.eval x (Lagrange.basis Finset.univ
            (fun k : Fin p.evaluations.length => (p.evaluations.get k).input)
            ⟨j, hj⟩) := dif_pos hj
      rw [hg]
      exact langrange_eq_basis p.evaluations x ⟨j, hj⟩ hinj)]
  rw [zero_add]
  rw [← Fin.sum_univ_eq_sum_range
    (fun j => basisAt p.evaluations x (0 + j) • (p.evaluations.getD j dfltEval).output)]
  refine congrArg some (Finset.sum_congr rfl (fun j _ => ?_))
  rw [Nat.zero_add, getD_eq_get]
  congr 1
  rw [show basisAt p.evaluations x (j : ℕ) =
      Polynomial.eval x (Lagrange.basis Finset.univ
        (fun k : Fin p.evaluations.length => (p.evaluations.get k).input)
        ⟨(j : ℕ), j.isLt⟩) from dif_pos j.isLt]

/-- A duplicate-input list's `Nodup` image characterisation: distinct sample
inputs give an injective input-indexing function. -/
theorem nodup_inputs_injective (samples : List (Evaluation F O))
    (h : (samples.map Evaluation.input).Nodup) :
    Function.Injective
      (fun j : Fin samples.length => (samples.get j).input) := by
  intro a b hab
  have hinj := List.nodup_iff_injective_get.mp h
  have hlen : (samples.map Evaluation.input).length = samples.length :=
    List.length_map _ _
  have ha : (samples.map Evaluation.input).get ⟨(a : ℕ), by omega⟩ =
      (samples.get a).input := by
    rw [List.get_eq_getElem, List.getElem_map, List.get_eq_getElem]
  have hb : (samples.map Evaluation.input).get ⟨(b : ℕ), by omega⟩ =
      (samples.get b).input := by
    rw [List.get_eq_getElem, List.getElem_map, List.get_eq_getElem]
  have h2 := hinj (show (samples.map Evaluation.input).get ⟨(a : ℕ), by omega⟩ =
    (samples.map Evaluation.input).get ⟨(b : ℕ), by omega⟩ by rw [ha, hb]; exact hab)
  have hval : (a : ℕ) = (b : ℕ) := by simpa using h2
  exact Fin.ext hval

end EvaluateLemmas

section InterpolationLemmas

variable {F : Type} [Field F] [DecidableEq F]

/-- With pairwise-distinct inputs, the executable scalar Lagrange evaluation
computes Mathlib's interpolating polynomial evaluated at `x`. -/
theorem evaluate_eq_eval_interpolate (p : LagrangePolynomial F F) (x : F)
    (hinj : Function.Injective
      (fun j : Fin p.evaluations.length => (p.evaluations.get j).input)) :
    p.evaluate x = some (Polynomial.eval x (Lagrange.interpolate Finset.univ
      (fun j : Fin p.evaluations.length => (p.evaluations.get j).input)
      (fun j : Fin p.evaluations.length => (p.evaluations.get j).output))) := by
  rw [evaluate_eq_sum_basis p x hinj]
  refine congrArg some ?_
  rw [Lagrange.interpolate_apply, Polynomial.eval_finset_sum]
  refine Finset.sum_congr rfl (fun j _ => ?_)
  rw [Polynomial.eval_mul, Polynomial.eval_C, smul_eq_mul, mul_comm]

/-- Reconstruction fidelity: interpolating at least `degree + 1` shares of a
standard-form polynomial with pairwise-distinct inputs reproduces its
evaluation everywhere. -/
theorem lagrange_reconstructs (c : List F) (samples : List (Evaluation F F))
    (hnodup : (samples.map Evaluation.input).Nodup)
    (hcount : (StandardFormPolynomial.mk c).degree + 1 ≤ samples.length)
    (hshares : ∀ e ∈ samples,
      e.output = StandardFormPolynomial.evaluate (StandardFormPolynomial.mk c) e.input)
    (x : F) :
    (LagrangePolynomial.mk samples).evaluate x =
      some (StandardFormPolynomial.evaluate (StandardFormPolynomial.mk c) x) := by
  have hinj := nodup_inputs_injective samples hnodup
  have hr : ∀ j : Fin samples.length,
      (samples.get j).output =
        Polynomial.eval ((samples.get j).input) (ofCoeffList c) := fun j => by
    rw [hshares (samples.get j) (List.get_mem samples (j : ℕ) j.isLt)]
    rw [StandardFormPolynomial.evaluate, ofCoeffList_eval]
  have hdeg : (ofCoeffList c).degree <
      (((Finset.univ : Finset (Fin samples.length))).card : WithBot ℕ) := by
    have h1 := ofCoeffList_degree_lt c
    have h2 : (((StandardFormPolynomial.mk c).degree + 1 : ℕ) : WithBot ℕ) ≤
        (samples.length : WithBot ℕ) := by exact_mod_cast hcount
    have h3 : ((Finset.univ : Finset (Fin samples.length))).card = samples.length := by
      simp
    rw [h3]
    exact lt_of_lt_of_le h1 h2
  have hmain : Polynomial.eval x (Lagrange.interpolate Finset.univ
      (fun j : Fin samples.length => (samples.get j).input)
      (fun j : Fin samples.length => (samples.get j).output)) =
      StandardFormPolynomial.evaluate (StandardFormPolynomial.mk c) x := by
    have hfe : (fun j : Fin samples.length => (samples.get j).output) =
        fun j : Fin samples.length =>
          Polynomial.eval ((fun k : Fin samples.length => (samples.get k).input) j)
            (ofCoeffList c) := funext hr
    rw [hfe, ← Lagrange.eq_interpolate hinj.injOn hdeg]
    rw [StandardFormPolynomial.evaluate, ofCoeffList_eval]
  rw [evaluate_eq_eval_interpolate (LagrangePolynomial.mk samples) x hinj, hmain]

/-- With duplicated stored inputs and an evaluation input distinct from every
stored input, the checked division hits a zero denominator and evaluation
fails. -/
theorem evaluate_dup_none (samples : List (Evaluation F F)) (x : F)
    (hdup : ∃ a b : Fin samples.length, a ≠ b ∧
      (samples.get a).input = (samples.get b).input)
    (hx : ∀ j : Fin samples.length, x ≠ (samples.get j).input) :
    (LagrangePolynomial.mk samples).evaluate x = none := by
  obtain ⟨a, b, hab, hdupin⟩ := hdup
  rw [LagrangePolynomial.evaluate]
  refine evaluateLoop_eq_none samples x samples 0 ⟨(a : ℕ), a.isLt, ?_⟩ 0
  rw [Nat.zero_add]
  have hget : samples.get? (a : ℕ) = some (samples.get a) := List.get?_eq_get a.isLt
  rw [langrange_poly_evaluate, hget]
  dsimp only
  rw [if_neg (hx a)]
  have hfac : ∀ j < samples.length, 0 + j ≠ (a : ℕ) →
      x - (samples.getD j dfltEval).input ≠ 0 := by
    intro j hj hne
    rw [getD_eq_get samples ⟨j, hj⟩]
    exact sub_ne_zero_of_ne (hx ⟨j, hj⟩)
  rw [lagrangeLoop_eq_div x (samples.get a).input (a : ℕ) samples 0 1 1
    one_ne_zero hfac, one_mul]
  have hbzero : (∏ j ∈ Finset.range samples.length,
      (if 0 + j = (a : ℕ) then 1
        else (samples.get a).input - (samples.getD j dfltEval).input)) = 0 := by
    refine Finset.prod_eq_zero (Finset.mem_range.mpr b.isLt) ?_
    rw [if_neg (fun hcon => hab (Fin.ext (by omega))), getD_eq_get samples b]
    rw [hdupin, sub_self]
  rw [hbzero]
  simp [checked_div]

end InterpolationLemmas

section PointMapLemmas

variable {F : Type} [Field F] [DecidableEq F] {P : Type} [AddCommGroup P] [Module F P]

theorem horner_pointMap (Q : P) (x : F) (cs : List F) :
    horner_poly_evaluate x (cs.map (fun scalar => scalar • Q)) =
      horner_poly_evaluate x cs • Q := by
  induction cs with
  | nil => simp [horner_nil]
  | cons a rest ih =>
    rw [List.map_cons, horner_cons, horner_cons, ih, smul_eq_mul, add_smul,
      smul_smul]

/-- The standard-form homomorphic point mapping commutes with Horner
evaluation. -/
theorem pointMulStandard_evaluate (Q : P) (p : StandardFormPolynomial F) (x : F) :
    (pointMulStandard Q p).evaluate x = p.evaluate x • Q := by
  rw [pointMulStandard, StandardFormPolynomial.evaluate, StandardFormPolynomial.evaluate]
  exact horner_pointMap Q x p.coefficients

theorem lagrangeLoop_pointMap (Q : P) (x xj : F) (idx : ℕ)
    (l : List (Evaluation F F)) (i : ℕ) (top bottom : F) :
    lagrangeLoop (O := P) x xj idx
      (l.map (fun eval => ⟨eval.input, eval.output • Q⟩)) i top bottom =
      lagrangeLoop x xj idx l i top bottom := by
  induction l generalizing i top bottom with
  | nil => rfl
  | cons e rest ih =>
    rw [List.map_cons, lagrangeLoop, lagrangeLoop]
    by_cases hidx : i = idx
    · rw [if_pos hidx, if_pos hidx, ih]
    · rw [if_neg hidx, if_neg hidx]
      dsimp only
      by_cases htz : top * (x - e.input) = 0
      · rw [if_pos htz, if_pos htz]
      · rw [if_neg htz, if_neg htz, ih]

theorem langrange_pointMap (Q : P) (evals : List (Evaluation F F)) (idx : ℕ)
    (x : F) :
    langrange_poly_evaluate
      (evals.map (fun eval => ⟨eval.input, eval.output • Q⟩)) idx x =
      langrange_poly_evaluate evals idx x := by
  rw [langrange_poly_evaluate, langrange_poly_evaluate]
  rw [List.get?_eq_getElem?, List.get?_eq_getElem?, List.getElem?_map]
  cases hget : evals[idx]? with
  | none => rfl
  | some e =>
    rw [Option.map_some']
    show (if x = e.input then some 1
        else lagrangeLoop x e.input idx
          (evals.map (fun eval => ⟨eval.input, eval.output • Q⟩)) 0 1 1) =
      (if x = e.input then some 1 else lagrangeLoop x e.input idx evals 0 1 1)
    by_cases hx : x = e.input
    · rw [if_pos hx, if_pos hx]
    · rw [if_neg hx, if_neg hx, lagrangeLoop_pointMap]

theorem evaluateLoop_pointMap (Q : P) (evals l : List (Evaluation F F)) (x : F)
    (i : ℕ) (out : F) :
    evaluateLoop (evals.map (fun eval => ⟨eval.input, eval.output • Q⟩)) x
      (l.map (fun eval => ⟨eval.input, eval.output • Q⟩)) i (out • Q) =
      (evaluateLoop evals x l i out).map (fun o => o • Q) := by
  induction l generalizing i out with
  | nil => rfl
  | cons e rest ih =>
    rw [List.map_cons, evaluateLoop, evaluateLoop, langrange_pointMap]
    cases hb : langrange_poly_evaluate evals i x with
    | none => rfl
    | some lv =>
      show evaluateLoop
          (List.map (fun eval => (⟨eval.input, eval.output • Q⟩ : Evaluation F P)) evals) x
          (List.map (fun eval => (⟨eval.input, eval.output • Q⟩ : Evaluation F P)) rest)
          (i + 1) (out • Q + lv • (e.output • Q)) =
        (evaluateLoop evals x rest (i + 1) (out + lv • e.output)).map (fun o => o • Q)
      rw [show out • Q + lv • (e.output • Q) = (out + lv • e.output) • Q by
        rw [smul_smul, add_smul, smul_eq_mul]]
      exact ih (i + 1) (out + lv • e.output)

/-- The interpolated-form homomorphic point mapping commutes with Lagrange
evaluation (a failing evaluation stays failing). -/
theorem pointMulLagrange_evaluate (Q : P) (p : LagrangePolynomial F F) (x : F) :
    (pointMulLagrange Q p).evaluate x =
      (p.evaluate x).map (fun out => out • Q) := by
  rw [pointMulLagrange, LagrangePolynomial.evaluate, LagrangePolynomial.evaluate]
  rw [show (0 : P) = (0 : F) • Q from (zero_smul F Q).symm]
  exact evaluateLoop_pointMap Q p.evaluations p.evaluations x 0 0

end PointMapLemmas

section HashingLemmas

theorem beVal_reverse (r : List ℕ) : beVal r.reverse = leVal r := by
  induction r with
  | nil => rfl
  | cons b rest ih =>
    rw [List.reverse_cons, beVal, List.foldl_append, leVal]
    rw [beVal] at ih
    rw [ih]
    show leVal rest * 256 + b = b + 256 * leVal rest
    omega

theorem leVal_lt (r : List ℕ) (h : ∀ b ∈ r, b < 256) :
    leVal r < 256 ^ r.length := by
  induction r with
  | nil => simp [leVal]
  | cons b rest ih =>
    have hb := h b (by simp)
    have hrest := ih (fun b hb => h b (by simp [hb]))
    rw [leVal, List.length_cons, pow_succ]
    omega

theorem incBytesLE_length (r : List ℕ) : (incBytesLE r).length = r.length := by
  induction r with
  | nil => rfl
  | cons b rest ih =>
    rw [incBytesLE]
    by_cases hb : b = 0xFF
    · rw [if_pos hb]
      simp [ih]
    · rw [if_neg hb]
      simp

theorem incBytesLE_bytes (r : List ℕ) (h : ∀ b ∈ r, b < 256) :
    ∀ b ∈ incBytesLE r, b < 256 := by
  induction r with
  | nil => simp [incBytesLE]
  | cons b rest ih =>
    rw [incBytesLE]
    by_cases hb : b = 0xFF
    · rw [if_pos hb]
      intro a ha
      rcases List.mem_cons.mp ha with h0 | h0
      · omega
      · exact ih (fun c hc => h c (by simp [hc])) a h0
    · rw [if_neg hb]
      intro a ha
      rcases List.mem_cons.mp ha with h0 | h0
      · have := h b (by simp)
        omega
      · exact h a (by simp [h0])

/-- The little-endian increment adds one modulo `256 ^ length`. -/
theorem incBytesLE_val (r : List ℕ) (h : ∀ b ∈ r, b < 256) :
    leVal (incBytesLE r) = (leVal r + 1) % 256 ^ r.length := by
  induction r with
  | nil => rfl
  | cons b rest ih =>
    have hb := h b (by simp)
    have hrest : ∀ c ∈ rest, c < 256 := fun c hc => h c (by simp [hc])
    by_cases hff : b = 0xFF
    · rw [incBytesLE, if_pos hff, leVal, leVal, ih hrest, hff]
      rw [List.length_cons, pow_succ]
      have : (255 + 256 * leVal rest + 1) = 256 * (leVal rest + 1) := by ring
      rw [this]
      rw [show (256 : ℕ) ^ rest.length * 256 = 256 * 256 ^ rest.length from by ring]
      rw [Nat.mul_mod_mul_left]
      omega
    · rw [incBytesLE, if_neg hff, leVal, leVal]
      have hlt := leVal_lt rest hrest
      rw [List.length_cons, pow_succ]
      have hmod : (b + 256 * leVal rest + 1) % (256 ^ rest.length * 256) =
          b + 256 * leVal rest + 1 := Nat.mod_eq_of_lt (by omega)
      rw [hmod]
      omega

/-- `inc_slice_be` increments a valid byte slice as a big-endian integer
modulo `256 ^ length`, preserving length and byte validity. -/
theorem inc_slice_be_spec (s : List ℕ) (h : ∀ b ∈ s, b < 256) :
    beVal (inc_slice_be s) = (beVal s + 1) % 256 ^ s.length ∧
    (inc_slice_be s).length = s.length ∧
    (∀ b ∈ inc_slice_be s, b < 256) := by
  have hrev : ∀ b ∈ s.reverse, b < 256 := fun b hb => h b (List.mem_reverse.mp hb)
  refine ⟨?_, ?_, ?_⟩
  · rw [inc_slice_be, beVal_reverse, incBytesLE_val s.reverse hrev]
    rw [List.length_reverse]
    congr 2
    rw [← beVal_reverse s.reverse, List.reverse_reverse]
  · rw [inc_slice_be, List.length_reverse, incBytesLE_length, List.length_reverse]
  · intro b hb
    rw [inc_slice_be] at hb
    exact incBytesLE_bytes s.reverse hrev b (List.mem_reverse.mp hb)

/-- The hash-to-point retry loop returns the point lifted from the first
liftable candidate. -/
theorem hashToPointLoop_first_lift {P : Type} (lift : List ℕ → Option P)
    (fuel k : ℕ) (h0 : List ℕ) (pt : P)
    (hk : k < fuel)
    (hmiss : ∀ j < k, lift (inc_slice_be^[j] h0) = none)
    (hhit : lift (inc_slice_be^[k] h0) = some pt) :
    hashToPointLoop lift fuel h0 = some pt := by
  induction k generalizing fuel h0 with
  | zero =>
    rcases fuel with _ | m
    · omega
    · rw [Function.iterate_zero_apply] at hhit
      rw [hashToPointLoop, hhit]
  | succ k ih =>
    rcases fuel with _ | m
    · omega
    · have h0miss := hmiss 0 (by omega)
      rw [Function.iterate_zero_apply] at h0miss
      rw [hashToPointLoop, h0miss]
      exact ih m (inc_slice_be h0) (by omega)
        (fun j hj => by
          rw [← Function.iterate_succ_apply]
          exact hmiss (j + 1) (by omega))
        (by rwa [← Function.iterate_succ_apply])

end HashingLemmas

section Claims

/-- C1: reconstruction fidelity with round-trip.  For every scalar polynomial
with coefficient list `c` of trimmed degree `d`, every list of at least `d + 1`
shares issued from it via `issue_share` whose inputs are pairwise distinct, and
every input `x`, the Lagrange polynomial built from those shares evaluates at
`x` to exactly the original polynomial's value (in particular, re-evaluating
at any issued share's input returns that share's original output). -/
theorem claim_C1 {F : Type} [Field F] [DecidableEq F] (c : List F)
    (samples : List (Evaluation F F))
    (hnodup : (samples.map Evaluation.input).Nodup)
    (hcount : (StandardFormPolynomial.mk c).degree + 1 ≤ samples.length)
    (hshares : ∀ e ∈ samples,
      e = (StandardFormPolynomial.mk c).issue_share e.input)
    (x : F) :
    (LagrangePolynomial.mk samples).evaluate x =
      some ((StandardFormPolynomial.mk c).evaluate x) ∧
    (∀ e ∈ samples,
      (LagrangePolynomial.mk samples).evaluate e.input = some e.output) := by
  have hshares' : ∀ e ∈ samples,
      e.output = (StandardFormPolynomial.mk c).evaluate e.input := fun e he =>
    congrArg Evaluation.output (hshares e he)
  refine ⟨lagrange_reconstructs c samples hnodup hcount hshares' x,
    fun e he => ?_⟩
  rw [lagrange_reconstructs c samples hnodup hcount hshares' e.input,
    ← hshares' e he]

/-- Concrete instance of C1 over `ZMod 11`: the polynomial `1 + 3x + 2x²`,
three issued shares at inputs 0, 1, 2, reconstruction evaluated at 5. -/
theorem claim_C1_witness :
    (LagrangePolynomial.mk [⟨0, 1⟩, ⟨1, 6⟩, ⟨2, 4⟩] :
      LagrangePolynomial (ZMod 11) (ZMod 11)).evaluate 5 =
      some ((StandardFormPolynomial.mk [1, 3, 2] :
        StandardFormPolynomial (ZMod 11)).evaluate (5 : ZMod 11)) ∧
    (∀ e ∈ ([⟨0, 1⟩, ⟨1, 6⟩, ⟨2, 4⟩] : List (Evaluation (ZMod 11) (ZMod 11))),
      (LagrangePolynomial.mk [⟨0, 1⟩, ⟨1, 6⟩, ⟨2, 4⟩] :
        LagrangePolynomial (ZMod 11) (ZMod 11)).evaluate e.input =
        some e.output) :=
  claim_C1 (F := ZMod 11) [1, 3, 2] [⟨0, 1⟩, ⟨1, 6⟩, ⟨2, 4⟩] (by decide)
    (by decide) (by decide) 5

/-- C2: homomorphic point mapping.  For every secret scalar polynomial in
either representation, every group element `Q`, and every input `x`, the point
polynomial produced by multiplying by `Q` evaluates to the scalar evaluation
acted on by `Q` (for the interpolated form, a panicking evaluation stays
panicking, which `Option.map` transports). -/
theorem claim_C2 {F : Type} [Field F] [DecidableEq F]
    {P : Type} [AddCommGroup P] [Module F P]
    (Q : P) (p : StandardFormPolynomial F) (q : LagrangePolynomial F F)
    (x : F) :
    (pointMulStandard Q p).evaluate x = p.evaluate x • Q ∧
    (pointMulLagrange Q q).evaluate x =
      (q.evaluate x).map (fun out => out • Q) :=
  ⟨pointMulStandard_evaluate Q p x, pointMulLagrange_evaluate Q q x⟩

/-- C3: Horner evaluation correctness.  For every coefficient vector `c`
(constant term first) and input `x`, the standard-form evaluation equals the
power sum `Σ c[i]·x^i`; the function is total and performs no division. -/
theorem claim_C3 {F : Type} [Field F] [DecidableEq F] (c : List F) (x : F) :
    (StandardFormPolynomial.mk c).evaluate x =
      ∑ i ∈ Finset.range c.length, c.getD i 0 * x ^ i := by
  rw [StandardFormPolynomial.evaluate, horner_eq_sum]
  exact Finset.sum_congr rfl (fun i _ => by rw [smul_eq_mul, mul_comm])

/-- C4: Lagrange basis edge cases.  With pairwise-distinct stored inputs, the
basis computation returns the multiplicative identity when `x` equals the
`i`-th stored input (short-circuiting before the loop), and returns the
additive identity — without any division failure — when `x` equals another
stored input. -/
theorem claim_C4 {F : Type} [Field F] [DecidableEq F]
    {O : Type} [AddCommGroup O] [Module F O]
    (evals : List (Evaluation F O))
    (hnodup : (evals.map Evaluation.input).Nodup)
    (i : Fin evals.length) (x : F) :
    (x = (evals.get i).input →
      langrange_poly_evaluate evals (i : ℕ) x = some 1) ∧
    (∀ k : Fin evals.length, k ≠ i → x = (evals.get k).input →
      langrange_poly_evaluate evals (i : ℕ) x = some 0) := by
  have hget : evals.get? (i : ℕ) = some (evals.get i) := List.get?_eq_get i.isLt
  constructor
  · intro hx
    rw [langrange_poly_evaluate, hget]
    dsimp only
    rw [if_pos hx]
  · intro k hk hxk
    have hinj := nodup_inputs_injective evals hnodup
    rw [langrange_poly_evaluate, hget]
    dsimp only
    have hxne : ¬ x = (evals.get i).input := by
      intro hcon
      exact hk (hinj (show (evals.get k).input = (evals.get i).input by
        rw [← hxk, hcon]))
    rw [if_neg hxne]
    exact lagrangeLoop_eq_zero x (evals.get i).input (i : ℕ) evals 0 1 1
      ⟨(k : ℕ), k.isLt, (fun hcon => hk (Fin.ext (by omega))),
        by rwa [getD_eq_get]⟩

/-- Concrete instance of C4 over `ZMod 11` with the repository's own sample
set `{(0,4), (1,1), (2,3)}` and basis index 0. -/
theorem claim_C4_witness :
    langrange_poly_evaluate
      ([⟨0, 4⟩, ⟨1, 1⟩, ⟨2, 3⟩] : List (Evaluation (ZMod 11) (ZMod 11)))
      0 0 = some 1 ∧
    langrange_poly_evaluate
      ([⟨0, 4⟩, ⟨1, 1⟩, ⟨2, 3⟩] : List (Evaluation (ZMod 11) (ZMod 11)))
      0 1 = some 0 :=
  ⟨(claim_C4 (F := ZMod 11) (O := ZMod 11) [⟨0, 4⟩, ⟨1, 1⟩, ⟨2, 3⟩]
      (by decide) ⟨0, by decide⟩ 0).1 (by decide),
    (claim_C4 (F := ZMod 11) (O := ZMod 11) [⟨0, 4⟩, ⟨1, 1⟩, ⟨2, 3⟩]
      (by decide) ⟨0, by decide⟩ 1).2 ⟨1, by decide⟩ (by decide) (by decide)⟩

/-- C5 counterexample: with the duplicated sample list `[(1,5), (1,5)]` over
`ZMod 11` and evaluation input `1` (a stored input), `evaluate` does not fail:
both basis computations short-circuit to 1 before any division, and the call
returns `some 10` — a silently wrong value, since both stored shares say the
polynomial's value at 1 is 5. -/
theorem claim_C5_counterexample :
    ¬ ((([⟨1, 5⟩, ⟨1, 5⟩] : List (Evaluation (ZMod 11) (ZMod 11))).map
        Evaluation.input).Nodup) ∧
    (LagrangePolynomial.mk [⟨1, 5⟩, ⟨1, 5⟩] :
      LagrangePolynomial (ZMod 11) (ZMod 11)).evaluate 1 = some 10 ∧
    (10 : ZMod 11) ≠ 5 := by
  refine ⟨by decide, ?_, by decide⟩
  decide

/-- C5 (amended): duplicate-input fail-fast holds for every evaluation input
that is not itself a stored input: the checked division refuses the
identity-valued denominator and evaluation fails.  (When `x` equals a stored
input the short-circuits fire first and a value is returned without any
division — see the counterexample.) -/
theorem claim_C5 {F : Type} [Field F] [DecidableEq F]
    (samples : List (Evaluation F F)) (x : F)
    (hdup : ∃ a b : Fin samples.length, a ≠ b ∧
      (samples.get a).input = (samples.get b).input)
    (hx : ∀ j : Fin samples.length, x ≠ (samples.get j).input) :
    (LagrangePolynomial.mk samples).evaluate x = none :=
  evaluate_dup_none samples x hdup hx

/-- Concrete instance of the amended C5: duplicated inputs `[(1,5), (1,5)]`
over `ZMod 11`, evaluated at the non-stored input 0, fail. -/
theorem claim_C5_witness :
    (LagrangePolynomial.mk [⟨1, 5⟩, ⟨1, 5⟩] :
      LagrangePolynomial (ZMod 11) (ZMod 11)).evaluate 0 = none :=
  claim_C5 [⟨1, 5⟩, ⟨1, 5⟩] 0 (by decide) (by decide)

/-- C6: standard-form degree rule.  The degree is the index of the highest
non-zero coefficient (trailing zeros not counted), an empty or all-zero vector
has degree 0, `interpolation_threshold = degree + 1`, and the three concrete
edge cases from the specification hold. -/
theorem claim_C6 :
    (∀ (T : Type) [Zero T] [DecidableEq T] (cs : List T),
      (∀ i, cs.getD i 0 ≠ 0 → i ≤ (StandardFormPolynomial.mk cs).degree) ∧
      ((∃ i, cs.getD i 0 ≠ 0) →
        cs.getD (StandardFormPolynomial.mk cs).degree 0 ≠ 0) ∧
      ((∀ a ∈ cs, a = 0) → (StandardFormPolynomial.mk cs).degree = 0) ∧
      (StandardFormPolynomial.mk cs).interpolation_threshold =
        (StandardFormPolynomial.mk cs).degree + 1) ∧
    (StandardFormPolynomial.mk ([] : List ℤ)).degree = 0 ∧
    (StandardFormPolynomial.mk ([0, 0, 0] : List ℤ)).degree = 0 ∧
    (StandardFormPolynomial.mk ([3, 3, 3] : List ℤ)).degree = 2 := by
  refine ⟨?_, by decide, by decide, by decide⟩
  intro T _ _ cs
  refine ⟨?_, getD_degree_ne_zero cs, degree_all_zero cs, rfl⟩
  intro i hi
  by_contra hgt
  exact hi (getD_eq_zero_of_degree_lt cs i (by omega))

/-- Concrete instance of C6's characterisation: for `[5, 7] : List ℤ` the
coefficient at the computed degree is non-zero. -/
theorem claim_C6_witness :
    ([5, 7] : List ℤ).getD
      (StandardFormPolynomial.mk ([5, 7] : List ℤ)).degree 0 ≠ 0 :=
  (claim_C6.1 ℤ [5, 7]).2.1 ⟨1, by decide⟩

/-- C7 counterexample: for the empty sample list, `interpolation_threshold`
is `degree + 1 = 1`, which is not the number of samples supplied (0). -/
theorem claim_C7_counterexample :
    (LagrangePolynomial.mk ([] : List (Evaluation ℤ ℤ))).interpolation_threshold
      = 1 ∧
    ([] : List (Evaluation ℤ ℤ)).length = 0 :=
  ⟨rfl, rfl⟩

/-- C7 (amended): for every sample list, `degree` is the sample count minus
one (floored at 0, so an empty list has degree 0) and
`interpolation_threshold` is `degree + 1`; the threshold equals the exact
sample count whenever at least one sample is supplied (for an empty list it
is 1, not 0). -/
theorem claim_C7 {I O : Type} (p : LagrangePolynomial I O) :
    p.degree = p.evaluations.length - 1 ∧
    p.interpolation_threshold = p.degree + 1 ∧
    (p.evaluations ≠ [] → p.interpolation_threshold = p.evaluations.length) := by
  rcases p with ⟨_ | ⟨e, rest⟩⟩
  · exact ⟨rfl, rfl, fun h => absurd rfl h⟩
  · refine ⟨rfl, rfl, fun h => ?_⟩
    rw [LagrangePolynomial.interpolation_threshold, LagrangePolynomial.degree]
    simp only [List.length_cons]
    omega

/-- Concrete instance of the amended C7: a one-sample list has threshold 1,
its exact sample count. -/
theorem claim_C7_witness :
    (LagrangePolynomial.mk [(⟨1, 2⟩ : Evaluation ℤ ℤ)]).interpolation_threshold
      = [(⟨1, 2⟩ : Evaluation ℤ ℤ)].length :=
  (claim_C7 (LagrangePolynomial.mk [(⟨1, 2⟩ : Evaluation ℤ ℤ)])).2.2 (by simp)

/-- C8: big-endian increment.  For every valid byte slice, `inc_slice_be`
adds one to the big-endian value modulo `256 ^ length` (so an all-0xFF slice
wraps to all zeros), preserves the length and byte range, leaves the empty
slice unchanged, and satisfies the four concrete fixtures from the
specification. -/
theorem claim_C8 :
    (∀ s : List ℕ, (∀ b ∈ s, b < 256) →
      beVal (inc_slice_be s) = (beVal s + 1) % 256 ^ s.length ∧
      (inc_slice_be s).length = s.length ∧
      (∀ b ∈ inc_slice_be s, b < 256)) ∧
    inc_slice_be [0x00] = [0x01] ∧
    inc_slice_be [0x00, 0x00, 0xFE] = [0x00, 0x00, 0xFF] ∧
    inc_slice_be [0xFF, 0xFF, 0xFF] = [0x00, 0x00, 0x00] ∧
    inc_slice_be [] = [] :=
  ⟨inc_slice_be_spec, by decide, by decide, by decide, rfl⟩

/-- Concrete instance of C8's value equation: incrementing `[0xFF, 0xFF]`
wraps its big-endian value to 0. -/
theorem claim_C8_witness :
    beVal (inc_slice_be [255, 255]) = (beVal [255, 255] + 1) % 256 ^ 2 :=
  (claim_C8.1 [255, 255] (by decide)).1

/-- C9: hash-to-point determinism.  With the external hash and x-coordinate
lift abstracted as functions (and the unbounded source loop given explicit
fuel), identical inputs produce identical outputs, and the result is the
point lifted from the first liftable candidate in the deterministic sequence
`sha(input)`, `sha(input)+1`, `sha(input)+2`, … of big-endian increments. -/
theorem claim_C9 {P : Type} (sha : List ℕ → List ℕ) (lift : List ℕ → Option P)
    (fuel : ℕ) :
    (∀ input1 input2, input1 = input2 →
      hash_to_point sha lift fuel input1 = hash_to_point sha lift fuel input2) ∧
    (∀ input k pt, k < fuel →
      (∀ j < k, lift (inc_slice_be^[j] (sha input)) = none) →
      lift (inc_slice_be^[k] (sha input)) = some pt →
      hash_to_point sha lift fuel input = some pt) := by
  refine ⟨fun a b h => by rw [h], fun input k pt hk hmiss hhit => ?_⟩
  rw [hash_to_point]
  exact hashToPointLoop_first_lift lift fuel k (sha input) pt hk hmiss hhit

/-- Concrete instance of C9: a lift that accepts only the digest `[2]` is
reached after exactly two increments of the digest `[0]`. -/
theorem claim_C9_witness :
    hash_to_point (fun l => l)
      (fun h => if h = [2] then some (7 : ℕ) else none) 3 [0] = some 7 :=
  (claim_C9 (fun l => l) (fun h => if h = [2] then some (7 : ℕ) else none) 3).2
    [0] 2 7 (by omega) (by decide) (by decide)

/-- C10: empty polynomials evaluate to the additive identity.  A standard-form
polynomial with no coefficients evaluates to 0, and a Lagrange polynomial with
no samples evaluates (successfully, with no division) to 0. -/
theorem claim_C10 {F : Type} [Field F] [DecidableEq F]
    {O : Type} [AddCommGroup O] [Module F O] (x : F) :
    (StandardFormPolynomial.mk ([] : List O)).evaluate x = 0 ∧
    (LagrangePolynomial.mk ([] : List (Evaluation F O))).evaluate x = some 0 :=
  ⟨rfl, rfl⟩

end Claims

end Qudoku
